import Mathlib

/-!
Verification development for the example-driven regex synthesizer
(`generate_gree_expression` in `script.py`).

The embedding models the host regular-expression dialect (Python `re`,
as used through `re.compile` / `re.fullmatch` / `re.escape`) on the
fragment of pattern syntax the program emits or tests: the anchors
`^` and `$`, the dot, literal characters, backslash escapes, the
classes `\d`, `\D`, `\w`, bracket expressions built from literal
characters (optionally negated), and the quantifiers `*`, `+` and
an exact repetition count.  Character classifications are modelled on
the ASCII range, matching the strings exercised by every claim.
Malformed patterns, and constructs outside this fragment, compile to
`none`; the validator treats that as failure, exactly as the source
catches `re.error`.

Matching is by position sets: every consuming atom of the fragment
eats exactly one character, so the set of positions reachable after a
pattern item is computed directly, which coincides with the
backtracking semantics on this capture-free fragment.  The dot does
not match a newline, and `$` also accepts the position just before a
trailing newline, as in the host dialect.
-/

/-- Generic flat-map on lists, used both by the matcher and by the
candidate generators; a local definition keeps its equations stable. -/
def flatMapL {α β : Type} (f : α → List β) : List α → List β
  | [] => []
  | a :: l => f a ++ flatMapL f l

/-- Model of Python `str.isalpha` on the ASCII range: nonempty and all
alphabetic. -/
def pyIsAlpha (s : String) : Bool := !s.data.isEmpty && s.data.all Char.isAlpha

/-- Model of Python `str.isdigit` on the ASCII range: nonempty and all
digits. -/
def pyIsDigit (s : String) : Bool := !s.data.isEmpty && s.data.all Char.isDigit

/-- Model of Python `str.isalnum` on the ASCII range: nonempty and all
alphanumeric.  Note the underscore is NOT alphanumeric. -/
def pyIsAlnum (s : String) : Bool := !s.data.isEmpty && s.data.all Char.isAlphanum

/-- The characters that `re.escape` prefixes with a backslash
(CPython 3.7+ special-character map). -/
def reSpecialChars : List Char :=
  ['(', ')', '[', ']', '\x7b', '\x7d', '?', '*', '+', '-', '|', '^', '$',
   '\\', '.', '&', '~', '#', ' ', '\t', '\n', '\r', '\x0b', '\x0c']

/-- Escape of a single character, as a character list. -/
def escChars (c : Char) : List Char :=
  if reSpecialChars.contains c then ['\\', c] else [c]

/-- The escape of a whole string, as a character list. -/
def escList (l : List Char) : List Char := flatMapL escChars l

/-- Model of `re.escape`. -/
def reEscape (s : String) : String := ⟨escList s.data⟩

/-- A consuming atom of the modelled pattern fragment. -/
inductive Atom : Type
  | dot : Atom
  | lit : Char → Atom
  | digit : Atom
  | ndigit : Atom
  | word : Atom
  | cls : Bool → List Char → Atom
  deriving Repr, DecidableEq

/-- Word characters for `\w` on the ASCII range: alphanumerics and the
underscore. -/
def isWordChar (c : Char) : Bool := c.isAlphanum || c = '_'

/-- Whether an atom accepts one character. -/
def atomAccepts : Atom → Char → Bool
  | .dot, c => c != '\n'
  | .lit a, c => c == a
  | .digit, c => c.isDigit
  | .ndigit, c => !c.isDigit
  | .word, c => isWordChar c
  | .cls neg cs, c => if neg then !cs.contains c else cs.contains c

/-- One item of a compiled pattern: an anchor, or an atom together with
its quantifier. -/
inductive RItem : Type
  | start : RItem
  | dollar : RItem
  | once : Atom → RItem
  | star : Atom → RItem
  | plus : Atom → RItem
  | exact : Atom → Nat → RItem
  deriving Repr, DecidableEq

/-- Body of a bracket expression: a list of literal characters, plus
the remainder of the input after the closing bracket.  A leading `]`
or a hyphen in first or last position is a literal, as in the host
dialect; ranges are outside the modelled fragment. -/
def parseClsBody (first : Bool) : List Char → Option (List Char × List Char)
  | [] => none
  | c :: rest =>
    if c = ']' then
      if first then (parseClsBody false rest).map (fun p => (']' :: p.1, p.2))
      else some ([], rest)
    else if c = '\\' then
      match rest with
      | [] => none
      | d :: rest' =>
        if d.isAlphanum then none
        else (parseClsBody false rest').map (fun p => (d :: p.1, p.2))
    else if c = '-' then
      match rest with
      | ']' :: r => some (['-'], r)
      | _ =>
        if first then (parseClsBody false rest).map (fun p => ('-' :: p.1, p.2))
        else none
    else (parseClsBody false rest).map (fun p => (c :: p.1, p.2))

/-- Parse one consuming atom from the head of the input. -/
def parseAtom : List Char → Option (Atom × List Char)
  | [] => none
  | c :: r =>
    if c = '.' then some (.dot, r)
    else if c = '\\' then
      match r with
      | [] => none
      | d :: r' =>
        if d = 'd' then some (.digit, r')
        else if d = 'D' then some (.ndigit, r')
        else if d = 'w' then some (.word, r')
        else if d.isAlphanum then none
        else some (.lit d, r')
    else if c = '[' then
      match r with
      | '^' :: r' => (parseClsBody true r').map (fun p => (Atom.cls true p.1, p.2))
      | _ => (parseClsBody true r).map (fun p => (Atom.cls false p.1, p.2))
    else if c = '(' ∨ c = ')' ∨ c = '|' then none
    else some (.lit c, r)

/-- Numeric value of a digit list. -/
def digitsToNat (l : List Char) : Nat :=
  l.foldl (fun n c => n * 10 + (c.toNat - 48)) 0

/-- Attach a quantifier to a parsed atom, if one follows. -/
def parseQuant (a : Atom) (l : List Char) : Option (RItem × List Char) :=
  match l with
  | [] => some (.once a, [])
  | c :: r =>
    if c = '*' then some (.star a, r)
    else if c = '+' then some (.plus a, r)
    else if c = '?' then none
    else if c = '\x7b' then
      match r.takeWhile Char.isDigit, r.dropWhile Char.isDigit with
      | [], _ => none
      | ds, '\x7d' :: r' => some (.exact a (digitsToNat ds), r')
      | _, _ => none
    else some (.once a, l)

/-- Fuel-indexed item parser; every step consumes at least one input
character, so fuel `length + 1` always suffices. -/
def parseItems : Nat → List Char → Option (List RItem)
  | 0, _ => none
  | _ + 1, [] => some []
  | fuel + 1, c :: rest =>
    if c = '^' then (parseItems fuel rest).map (fun its => RItem.start :: its)
    else if c = '$' then (parseItems fuel rest).map (fun its => RItem.dollar :: its)
    else if c = '*' ∨ c = '+' ∨ c = '?' then none
    else
      match parseAtom (c :: rest) with
      | none => none
      | some (a, r) =>
        match parseQuant a r with
        | none => none
        | some (it, r') => (parseItems fuel r').map (fun its => it :: its)

/-- Model of `re.compile` on the emitted fragment. -/
def compile (p : String) : Option (List RItem) :=
  parseItems (p.data.length + 1) p.data

/-- Number of leading characters of `l` accepted by atom `a`. -/
def runLen (a : Atom) : List Char → Nat
  | [] => 0
  | c :: rest => if atomAccepts a c then runLen a rest + 1 else 0

/-- Whether atom `a` can consume the character at position `p` of `s`. -/
def canEat (a : Atom) (s : List Char) (p : Nat) : Bool :=
  match (s.drop p).head? with
  | some c => atomAccepts a c
  | none => false

/-- Positions reachable from position `p` after one pattern item. -/
def itemPositions (it : RItem) (s : List Char) (p : Nat) : List Nat :=
  match it with
  | .start => if p = 0 then [p] else []
  | .dollar =>
    if p = s.length ∨ (p + 1 = s.length ∧ (s.drop p).head? = some '\n') then [p]
    else []
  | .once a => if canEat a s p then [p + 1] else []
  | .star a => List.range' p (runLen a (s.drop p) + 1)
  | .plus a => List.range' (p + 1) (runLen a (s.drop p))
  | .exact a n => if n ≤ runLen a (s.drop p) then [p + n] else []

/-- Positions reachable from a position set after one pattern item. -/
def stepPositions (it : RItem) (s : List Char) (ps : List Nat) : List Nat :=
  flatMapL (itemPositions it s) ps

/-- Positions reachable after running all items of a pattern. -/
def runItems (its : List RItem) (s : List Char) (ps : List Nat) : List Nat :=
  its.foldl (fun acc it => stepPositions it s acc) ps

/-- Full match of a compiled pattern against a subject: position 0 must
reach the end of the subject. -/
def fullmatchChars (its : List RItem) (s : List Char) : Bool :=
  (runItems its s [0]).contains s.length

/-- Model of `re.fullmatch` (as a boolean): `false` when the pattern
does not compile. -/
def pyFullmatch (p s : String) : Bool :=
  match compile p with
  | none => false
  | some its => fullmatchChars its s.data

/-- Embedding of `_test_pattern`: compile, require a full match of every
valid string and of no invalid string; a compilation failure is `false`,
never an error. -/
def test_pattern (pattern : String) (valid invalid : List String) : Bool :=
  match compile pattern with
  | none => false
  | some its =>
    valid.all (fun s => fullmatchChars its s.data) &&
    invalid.all (fun s => !fullmatchChars its s.data)

/-- Embedding of `_get_character_class_patterns`. -/
def get_character_class_patterns (valid invalid : List String) : List String :=
  (if valid.all pyIsAlpha && invalid.all pyIsDigit then ["^\\D+$"] else []) ++
  (if valid.all pyIsDigit && invalid.all pyIsAlpha then ["^\\d+$"] else []) ++
  (if valid.all pyIsAlnum then ["^\\w+$"] else [])

/-- The source's escaping rule for a single character used in the
position and content generators: a hyphen is left bare, every other
character goes through `re.escape`. -/
def escDash (c : Char) : String :=
  if c = '-' then "-" else ⟨escChars c⟩

/-- Embedding of `_get_position_patterns`.  Python `set(...)` of the
first (respectively last) characters is modelled as a deduplicated
list; only its cardinality and sole member are consumed, so the
iteration order of that set is immaterial here. -/
def get_position_patterns (valid invalid : List String) : List String :=
  (match (valid.filterMap (fun s => s.data.head?)).dedup with
   | [c] =>
     if invalid.any (fun s => s.data.head? == some c) then []
     else ["^[" ++ escDash c ++ "].+$", "^" ++ escDash c ++ ".*$"]
   | _ => []) ++
  (match (valid.filterMap (fun s => s.data.getLast?)).dedup with
   | [c] =>
     if invalid.any (fun s => s.data.getLast? == some c) then []
     else ["^.+[" ++ escDash c ++ "]$", "^.*" ++ escDash c ++ "$"]
   | _ => [])

/-- The fixed separator list of `_get_content_patterns`. -/
def commonSeparators : List Char := ['-', '@', '.', '_', ':']

/-- Embedding of `_get_content_patterns`.  The source iterates the
Python set `valid_chars - invalid_chars`; its enumeration order is a
property of the host (string hashing), so it is taken here as the
explicit argument `exclusive`. -/
def get_content_patterns (valid invalid : List String) (exclusive : List Char) :
    List String :=
  flatMapL
    (fun c =>
      if valid.all (fun s => s.data.contains c) then
        ["^.+" ++ escDash c ++ ".+$", "^.*" ++ escDash c ++ ".*$"]
      else [])
    exclusive ++
  flatMapL
    (fun sep =>
      if valid.all (fun s => s.data.contains sep) &&
         !(invalid.any (fun s => s.data.contains sep)) then
        ["^.+" ++ escDash sep ++ ".+$"]
      else [])
    commonSeparators

/-- The email-shaped bracket-class candidate of the structural
generator. -/
def emailGeneric : String := "^[^@]+@[^@]+\\.[^@]+$"

/-- Embedding of `_get_structure_patterns`: the first email candidate is
self-tested against the validator before being listed, the other two are
listed unconditionally. -/
def get_structure_patterns (valid invalid : List String) : List String :=
  if valid.all (fun s => s.data.contains '@' && s.data.contains '.') then
    (if test_pattern "^\\D+@\\w+\\.\\w+$" valid invalid
     then ["^\\D+@\\w+\\.\\w+$"] else []) ++
    [emailGeneric, "^\\w+@\\w+\\.\\w+$"]
  else []

/-- Embedding of `_get_length_patterns`. -/
def get_length_patterns (valid invalid : List String) : List String :=
  match (valid.map String.length).dedup with
  | [n] =>
    if ((invalid.map String.length).dedup).contains n then []
    else ["^.\x7b" ++ toString n ++ "\x7d$"]
  | _ => []

/-- The combined candidate list, in the orchestrator's fixed order:
character class, position, structure, content, length. -/
def patternsToTry (valid invalid : List String) (exclusive : List Char) :
    List String :=
  get_character_class_patterns valid invalid ++
  get_position_patterns valid invalid ++
  get_structure_patterns valid invalid ++
  get_content_patterns valid invalid exclusive ++
  get_length_patterns valid invalid

/-- The orchestrator's per-candidate test: the 20-character budget and
the validator. -/
def candidateOk (valid invalid : List String) (p : String) : Bool :=
  decide (p.length ≤ 20) && test_pattern p valid invalid

/-- Embedding of `generate_gree_expression`, parametrised by the
enumeration order of the exclusive-character set used by the content
generator (a host-determined iteration order in the source). -/
def generateGreeExpressionOrd (valid invalid : List String)
    (exclusive : List Char) : String :=
  if valid.isEmpty then "^$"
  else
    match (patternsToTry valid invalid exclusive).find? (candidateOk valid invalid) with
    | some p => p
    | none =>
      match valid with
      | [s] => if s.length ≤ 18 then "^" ++ reEscape s ++ "$" else "^.*$"
      | _ => "^.*$"

/-- One concrete enumeration of the exclusive-character set
`set(valid chars) - set(invalid chars)`. -/
def exclusiveChars (valid invalid : List String) : List Char :=
  ((flatMapL String.data valid).dedup).filter
    (fun c => !(flatMapL String.data invalid).contains c)

/-- Embedding of `generate_gree_expression` at a fixed enumeration of
the exclusive-character set. -/
def generate_gree_expression (valid invalid : List String) : String :=
  generateGreeExpressionOrd valid invalid (exclusiveChars valid invalid)

/-! ## Basic helper lemmas -/

lemma strExt {a b : String} (h : a.data = b.data) : a = b := by
  cases a; cases b; exact congrArg String.mk h

lemma strDataAppend (a b : String) : (a ++ b).data = a.data ++ b.data :=
  String.data_append a b

lemma str_eq_empty_iff (s : String) : s = "" ↔ s.data = [] := by
  constructor
  · intro h; rw [h]
  · intro h; exact strExt (by rw [h])

lemma mem_flatMapL {α β : Type} (f : α → List β) (l : List α) (b : β) :
    b ∈ flatMapL f l ↔ ∃ a ∈ l, b ∈ f a := by
  induction l with
  | nil => simp [flatMapL]
  | cons a l ih => simp [flatMapL, ih]

lemma hat_head (m : String) : ("^" ++ m ++ "$").data.head? = some '^' := by
  rw [strDataAppend, strDataAppend]; rfl

lemma hat_last (m : String) : ("^" ++ m ++ "$").data.getLast? = some '$' := by
  rw [strDataAppend, strDataAppend]
  exact List.getLast?_concat _

lemma hat_shape3 (a b x pre suf : String) (hpre : pre.data = '^' :: a.data)
    (hsuf : suf.data = b.data ++ ['$']) :
    pre ++ x ++ suf = "^" ++ (a ++ x ++ b) ++ "$" := by
  apply strExt
  rw [strDataAppend, strDataAppend, strDataAppend, strDataAppend, hpre, hsuf]
  show ('^' :: a.data) ++ x.data ++ (b.data ++ ['$']) =
    ['^'] ++ (a.data ++ x.data ++ b.data) ++ ['$']
  simp [List.append_assoc]

/-! ## Anchor-shape lemmas: every emitted candidate is of the form
`"^" ++ mid ++ "$"`. -/

lemma shape_brkStart (e : String) :
    "^[" ++ e ++ "].+$" = "^" ++ ("[" ++ e ++ "].+") ++ "$" :=
  hat_shape3 "[" "].+" e "^[" "].+$" rfl rfl

lemma shape_litStart (e : String) :
    "^" ++ e ++ ".*$" = "^" ++ ("" ++ e ++ ".*") ++ "$" :=
  hat_shape3 "" ".*" e "^" ".*$" rfl rfl

lemma shape_brkEnd (e : String) :
    "^.+[" ++ e ++ "]$" = "^" ++ (".+[" ++ e ++ "]") ++ "$" :=
  hat_shape3 ".+[" "]" e "^.+[" "]$" rfl rfl

lemma shape_litEnd (e : String) :
    "^.*" ++ e ++ "$" = "^" ++ (".*" ++ e ++ "") ++ "$" :=
  hat_shape3 ".*" "" e "^.*" "$" rfl rfl

lemma shape_contain1 (e : String) :
    "^.+" ++ e ++ ".+$" = "^" ++ (".+" ++ e ++ ".+") ++ "$" :=
  hat_shape3 ".+" ".+" e "^.+" ".+$" rfl rfl

lemma shape_contain0 (e : String) :
    "^.*" ++ e ++ ".*$" = "^" ++ (".*" ++ e ++ ".*") ++ "$" :=
  hat_shape3 ".*" ".*" e "^.*" ".*$" rfl rfl

lemma shape_len (e : String) :
    "^.\x7b" ++ e ++ "\x7d$" = "^" ++ (".\x7b" ++ e ++ "\x7d") ++ "$" :=
  hat_shape3 ".\x7b" "\x7d" e "^.\x7b" "\x7d$" rfl rfl

lemma ccp_hat (v i : List String) :
    ∀ p ∈ get_character_class_patterns v i, ∃ m, p = "^" ++ m ++ "$" := by
  intro p hp
  unfold get_character_class_patterns at hp
  rcases List.mem_append.mp hp with hp | hp
  · rcases List.mem_append.mp hp with hp | hp <;> split at hp <;> simp at hp
    · exact ⟨"\\D+", by rw [hp]; decide⟩
    · exact ⟨"\\d+", by rw [hp]; decide⟩
  · split at hp <;> simp at hp
    exact ⟨"\\w+", by rw [hp]; decide⟩

lemma pos_hat (v i : List String) :
    ∀ p ∈ get_position_patterns v i, ∃ m, p = "^" ++ m ++ "$" := by
  intro p hp
  unfold get_position_patterns at hp
  rcases List.mem_append.mp hp with hp | hp <;>
    (split at hp; rotate_left; · simp at hp) <;> split at hp <;> simp at hp
  · rcases hp with hp | hp
    · exact ⟨_, by rw [hp, shape_brkStart]⟩
    · exact ⟨_, by rw [hp, shape_litStart]⟩
  · rcases hp with hp | hp
    · exact ⟨_, by rw [hp, shape_brkEnd]⟩
    · exact ⟨_, by rw [hp, shape_litEnd]⟩

lemma struct_hat (v i : List String) :
    ∀ p ∈ get_structure_patterns v i, ∃ m, p = "^" ++ m ++ "$" := by
  intro p hp
  unfold get_structure_patterns at hp
  split at hp
  · rcases List.mem_append.mp hp with hp | hp
    · split at hp <;> simp at hp
      exact ⟨"\\D+@\\w+\\.\\w+", by rw [hp]; decide⟩
    · simp at hp
      rcases hp with hp | hp
      · exact ⟨"[^@]+@[^@]+\\.[^@]+", by rw [hp]; decide⟩
      · exact ⟨"\\w+@\\w+\\.\\w+", by rw [hp]; decide⟩
  · simp at hp

lemma content_hat (v i : List String) (e : List Char) :
    ∀ p ∈ get_content_patterns v i e, ∃ m, p = "^" ++ m ++ "$" := by
  intro p hp
  unfold get_content_patterns at hp
  rcases List.mem_append.mp hp with hp | hp <;>
    (obtain ⟨c, -, hp⟩ := (mem_flatMapL _ _ _).mp hp) <;> split at hp <;> simp at hp
  · rcases hp with hp | hp
    · exact ⟨_, by rw [hp, shape_contain1]⟩
    · exact ⟨_, by rw [hp, shape_contain0]⟩
  · exact ⟨_, by rw [hp, shape_contain1]⟩

lemma len_hat (v i : List String) :
    ∀ p ∈ get_length_patterns v i, ∃ m, p = "^" ++ m ++ "$" := by
  intro p hp
  unfold get_length_patterns at hp
  split at hp
  · split at hp <;> simp at hp
    exact ⟨_, by rw [hp, shape_len]⟩
  · simp at hp

lemma patterns_hat (v i : List String) (e : List Char) :
    ∀ p ∈ patternsToTry v i e, ∃ m, p = "^" ++ m ++ "$" := by
  intro p hp
  unfold patternsToTry at hp
  rcases List.mem_append.mp hp with hp | hp
  · rcases List.mem_append.mp hp with hp | hp
    · rcases List.mem_append.mp hp with hp | hp
      · rcases List.mem_append.mp hp with hp | hp
        · exact ccp_hat v i p hp
        · exact pos_hat v i p hp
      · exact struct_hat v i p hp
    · exact content_hat v i e p hp
  · exact len_hat v i p hp

/-! ## Runner equations and orchestrator case analysis -/

lemma runItems_nil (s : List Char) (ps : List Nat) : runItems [] s ps = ps := rfl

lemma runItems_cons (it : RItem) (its : List RItem) (s : List Char) (ps : List Nat) :
    runItems (it :: its) s ps = runItems its s (stepPositions it s ps) := rfl

lemma runItems_append (l1 l2 : List RItem) (s : List Char) (ps : List Nat) :
    runItems (l1 ++ l2) s ps = runItems l2 s (runItems l1 s ps) := by
  unfold runItems
  exact List.foldl_append _ _ _ _

lemma stepPositions_singleton (it : RItem) (s : List Char) (p : Nat) :
    stepPositions it s [p] = itemPositions it s p := by
  simp [stepPositions, flatMapL]

lemma contains_iff_mem (l : List Nat) (n : Nat) : l.contains n = true ↔ n ∈ l := by
  simp [List.contains, List.elem_iff]

lemma test_pattern_iff (p : String) (v i : List String) :
    test_pattern p v i = true ↔
      ((compile p).isSome ∧ (∀ s ∈ v, pyFullmatch p s = true) ∧
        (∀ s ∈ i, pyFullmatch p s = false)) := by
  unfold test_pattern pyFullmatch
  cases hc : compile p with
  | none => simp
  | some its => simp [List.all_eq_true]

lemma genOrd_none_single {s : String} {i : List String} {e : List Char}
    (hfind : (patternsToTry [s] i e).find? (candidateOk [s] i) = none) :
    generateGreeExpressionOrd [s] i e =
      if s.length ≤ 18 then "^" ++ reEscape s ++ "$" else "^.*$" := by
  unfold generateGreeExpressionOrd
  rw [hfind]
  rfl

lemma genOrd_none_multi {v i : List String} {e : List Char} (hne : v ≠ [])
    (hns : ∀ s, v ≠ [s])
    (hfind : (patternsToTry v i e).find? (candidateOk v i) = none) :
    generateGreeExpressionOrd v i e = "^.*$" := by
  match v, hne, hns with
  | a :: b :: u, _, _ =>
    unfold generateGreeExpressionOrd
    rw [hfind]
    rfl
  | [a], _, hns => exact absurd rfl (hns a)

lemma genOrd_eq_cases (v i : List String) (e : List Char) :
    (v = [] ∧ generateGreeExpressionOrd v i e = "^$") ∨
    (∃ p, p ∈ patternsToTry v i e ∧ candidateOk v i p = true ∧
      generateGreeExpressionOrd v i e = p) ∨
    (∃ s, v = [s] ∧ s.length ≤ 18 ∧
      generateGreeExpressionOrd v i e = "^" ++ reEscape s ++ "$") ∨
    generateGreeExpressionOrd v i e = "^.*$" := by
  cases v with
  | nil => exact Or.inl ⟨rfl, rfl⟩
  | cons a t =>
    right
    cases hf : (patternsToTry (a :: t) i e).find? (candidateOk (a :: t) i) with
    | some p =>
      left
      refine ⟨p, List.mem_of_find?_eq_some hf, List.find?_some hf, ?_⟩
      unfold generateGreeExpressionOrd
      rw [hf]
      rfl
    | none =>
      right
      cases t with
      | nil =>
        by_cases h18 : a.length ≤ 18
        · exact Or.inl ⟨a, rfl, h18, by rw [genOrd_none_single hf]; simp [h18]⟩
        · exact Or.inr (by rw [genOrd_none_single hf]; simp [h18])
      | cons b u =>
        exact Or.inr (genOrd_none_multi (by simp) (fun s => by simp) hf)

lemma runLen_dot {l : List Char} (h : '\n' ∉ l) : runLen Atom.dot l = l.length := by
  induction l with
  | nil => rfl
  | cons c t ih =>
    have hc : c ≠ '\n' := fun hh => h (hh ▸ List.mem_cons_self c t)
    have ht : '\n' ∉ t := fun hm => h (List.mem_cons_of_mem c hm)
    simp [runLen, atomAccepts, bne_iff_ne, hc, ih ht]

/-! ## Claim theorems -/

/-- C2: for every pattern string and every pair of input lists, the
validator `_test_pattern` returns true if and only if the pattern
compiles in the host regex dialect, full-matches every string in the
valid set, and full-matches no string in the invalid set; in
particular a compilation failure yields false and never propagates an
error to the caller. -/
theorem c2_validator_iff :
    (∀ (p : String) (v i : List String),
      test_pattern p v i = true ↔
        ((compile p).isSome ∧ (∀ s ∈ v, pyFullmatch p s = true) ∧
          (∀ s ∈ i, pyFullmatch p s = false))) ∧
    (∀ (p : String) (v i : List String),
      compile p = none → test_pattern p v i = false) := by
  refine ⟨fun p v i => test_pattern_iff p v i, fun p v i hc => ?_⟩
  unfold test_pattern
  rw [hc]

/-- C2 witness: the malformed pattern with an unbalanced bracket fails
to compile and the validator returns false on it, and the iff holds at
a concrete instance. -/
theorem c2_witness :
    test_pattern "[" [] ["x"] = false ∧ test_pattern "^$" [""] [] = true :=
  ⟨c2_validator_iff.2 "[" [] ["x"] rfl,
   (c2_validator_iff.1 "^$" [""] []).mpr (by decide)⟩

/-- C3: for every invalid list, the synthesizer applied to an empty
valid list returns the pattern matching exactly the empty string,
independent of the invalid set, and that pattern full-matches the
empty string and no other string. -/
theorem c3_empty_valid :
    (∀ invalid : List String, generate_gree_expression [] invalid = "^$") ∧
    (∀ s : String, pyFullmatch "^$" s = true ↔ s = "") := by
  constructor
  · intro invalid; rfl
  · intro s
    unfold pyFullmatch
    rw [show compile "^$" = some [RItem.start, RItem.dollar] from rfl]
    show (runItems [RItem.start, RItem.dollar] s.data [0]).contains s.data.length = true ↔ s = ""
    rw [runItems_cons, stepPositions_singleton,
      show itemPositions RItem.start s.data 0 = [0] from rfl,
      runItems_cons, stepPositions_singleton, runItems_nil, str_eq_empty_iff]
    cases hs : s.data with
    | nil => decide
    | cons c t =>
      apply iff_of_false
      · intro h
        rw [contains_iff_mem] at h
        simp only [itemPositions] at h
        split at h
        · simp at h
        · simp at h
      · simp

/-- C4 counterexample: the universal pattern does not full-match the
one-character string consisting of a newline, so it does not match
every string of every length. -/
theorem c4_counterexample : pyFullmatch "^.*$" "\n" = false := by decide

/-- C4 amended: the universal last-resort pattern full-matches every
string that contains no newline character. -/
theorem c4_amended (s : String) (h : '\n' ∉ s.data) : pyFullmatch "^.*$" s = true := by
  unfold pyFullmatch
  rw [show compile "^.*$" = some [RItem.start, RItem.star Atom.dot, RItem.dollar] from rfl]
  show (runItems [RItem.start, RItem.star Atom.dot, RItem.dollar] s.data [0]).contains
    s.data.length = true
  rw [runItems_cons, stepPositions_singleton,
    show itemPositions RItem.start s.data 0 = [0] from rfl,
    runItems_cons, stepPositions_singleton]
  rw [show itemPositions (RItem.star Atom.dot) s.data 0 =
      List.range' 0 (s.data.length + 1) from by
    simp [itemPositions, runLen_dot h]]
  rw [runItems_cons, runItems_nil, contains_iff_mem]
  unfold stepPositions
  rw [mem_flatMapL]
  refine ⟨s.data.length, ?_, ?_⟩
  · rw [List.mem_range'_1]; omega
  · simp [itemPositions]

/-- C4 witness: the amended statement applied at a concrete
newline-free string. -/
theorem c4_witness : pyFullmatch "^.*$" "abc" = true :=
  c4_amended "abc" (by decide)

/-- C5: determinism fails between runs because the content generator
iterates a hash-ordered set.  Both orders below enumerate the same
exclusive-character set of the input, yet they make the synthesizer
return different winning patterns. -/
theorem c5_order_dependence :
    List.Perm ['a', 'b'] (exclusiveChars ["ab", "ba"] ["cd", "dc"]) ∧
    List.Perm ['b', 'a'] (exclusiveChars ["ab", "ba"] ["cd", "dc"]) ∧
    generateGreeExpressionOrd ["ab", "ba"] ["cd", "dc"] ['a', 'b'] = "^.*a.*$" ∧
    generateGreeExpressionOrd ["ab", "ba"] ["cd", "dc"] ['b', 'a'] = "^.*b.*$" ∧
    ("^.*a.*$" : String) ≠ "^.*b.*$" := by
  refine ⟨by decide, by decide, by decide, by decide, by decide⟩

/-- C6 counterexample: every character of the string with an
underscore is a word character, yet the character-class generator does
not propose the word-class pattern for it, because the source tests
Python `isalnum`, which rejects the underscore. -/
theorem c6_counterexample :
    "a_b".data.all isWordChar = true ∧
    "^\\w+$" ∉ get_character_class_patterns ["a_b"] [] := by decide

/-- C6 amended: the character-class generator proposes the word-class
candidate exactly when every valid string is nonempty and consists
solely of alphanumeric characters (underscores excluded), regardless
of the invalid set. -/
theorem c6_amended (v i : List String) :
    "^\\w+$" ∈ get_character_class_patterns v i ↔ ∀ s ∈ v, pyIsAlnum s = true := by
  unfold get_character_class_patterns
  constructor
  · intro h
    rcases List.mem_append.mp h with h | h
    · rcases List.mem_append.mp h with h | h <;> split at h <;> simp at h
    · split at h
      · next hc => exact fun s hs => List.all_eq_true.mp hc s hs
      · simp at h
  · intro h
    have hc : v.all pyIsAlnum = true := List.all_eq_true.mpr h
    rw [hc]
    simp

/-- C6 witness: the amended statement applied at a concrete purely
alphanumeric valid set. -/
theorem c6_witness : "^\\w+$" ∈ get_character_class_patterns ["ab1"] ["zz"] :=
  (c6_amended ["ab1"] ["zz"]).mpr (by decide)

/-- C7: for every pair of input lists and every enumeration of the
exclusive-character set, the pattern returned by the synthesizer
begins with the start anchor and ends with the end anchor; no
unanchored pattern is ever returned. -/
theorem c7_anchored (v i : List String) (e : List Char) :
    (generateGreeExpressionOrd v i e).data.head? = some '^' ∧
    (generateGreeExpressionOrd v i e).data.getLast? = some '$' := by
  rcases genOrd_eq_cases v i e with ⟨hv, hr⟩ | ⟨p, hmem, hok, hr⟩ | ⟨s, hv, h18, hr⟩ | hr
  · rw [hr]; exact ⟨rfl, rfl⟩
  · obtain ⟨m, hm⟩ := patterns_hat v i e p hmem
    rw [hr, hm]
    exact ⟨hat_head m, hat_last m⟩
  · rw [hr]; exact ⟨hat_head _, hat_last _⟩
  · rw [hr]; exact ⟨rfl, rfl⟩

/-- C8 counterexample: an input on which no candidate both fits the
20-character budget and validates, the valid set does not consist of
exactly one short string, and yet the synthesizer returns the
empty-valid-set pattern rather than the universal pattern. -/
theorem c8_counterexample :
    (∀ p ∈ patternsToTry [] ["a", "a@b.c", "-", "_", ":"]
        (exclusiveChars [] ["a", "a@b.c", "-", "_", ":"]),
      ¬ (p.length ≤ 20 ∧ test_pattern p [] ["a", "a@b.c", "-", "_", ":"] = true)) ∧
    (¬ ∃ s : String, ([] : List String) = [s] ∧ s.length ≤ 18) ∧
    generate_gree_expression [] ["a", "a@b.c", "-", "_", ":"] = "^$" ∧
    ("^$" : String) ≠ "^.*$" := by
  refine ⟨by decide, ?_, by decide, by decide⟩
  rintro ⟨s, hs, -⟩
  simp at hs

/-- C8 amended: when no candidate in the combined list both fits the
20-character budget and validates, the synthesizer returns the
anchored exact-escape pattern when the valid set is exactly one
string of length at most 18, and returns the universal pattern when
the valid set is nonempty and is not such a singleton; an empty valid
set instead short-circuits to the empty-string pattern before the
candidate stage. -/
theorem c8_amended (v i : List String) (e : List Char)
    (hn : ∀ p ∈ patternsToTry v i e, ¬ (p.length ≤ 20 ∧ test_pattern p v i = true)) :
    (∀ s, v = [s] → s.length ≤ 18 →
      generateGreeExpressionOrd v i e = "^" ++ reEscape s ++ "$") ∧
    (v ≠ [] → (∀ s, v = [s] → ¬ s.length ≤ 18) →
      generateGreeExpressionOrd v i e = "^.*$") := by
  have hfind : (patternsToTry v i e).find? (candidateOk v i) = none := by
    rw [List.find?_eq_none]
    intro p hp hok
    apply hn p hp
    unfold candidateOk at hok
    rw [Bool.and_eq_true] at hok
    exact ⟨of_decide_eq_true hok.1, hok.2⟩
  constructor
  · rintro s rfl h18
    rw [genOrd_none_single hfind, if_pos h18]
  · intro hne hns
    cases v with
    | nil => exact absurd rfl hne
    | cons a t =>
      cases t with
      | nil => rw [genOrd_none_single hfind, if_neg (hns a rfl)]
      | cons b u => exact genOrd_none_multi (by simp) (fun s => by simp) hfind

/-- C8 witness: for a valid set holding one short string that also
appears in the invalid set, no candidate validates and the amended
statement yields the exact-escape fallback. -/
theorem c8_witness :
    generateGreeExpressionOrd ["y"] ["y"] (exclusiveChars ["y"] ["y"]) =
      "^" ++ reEscape "y" ++ "$" :=
  (c8_amended ["y"] ["y"] (exclusiveChars ["y"] ["y"]) (by decide)).1 "y" rfl (by decide)

/-- C9 counterexample: the bracket-class email candidate has length
20, within the 20-character budget, and there is an input for which
the synthesizer returns exactly that candidate. -/
theorem c9_counterexample :
    generate_gree_expression ["1a@b.c"] ["1xc"] = emailGeneric ∧
    emailGeneric.length = 20 := by
  refine ⟨by decide, by decide⟩

/-- C9 amended: the structural generator emits the bracket-class email
candidate unconditionally whenever every valid string contains both an
at-sign and a period; its length is exactly 20, so it fits the
20-character budget rather than always exceeding it. -/
theorem c9_amended :
    (∀ v i : List String,
      (∀ s ∈ v, s.data.contains '@' = true ∧ s.data.contains '.' = true) →
      emailGeneric ∈ get_structure_patterns v i) ∧
    emailGeneric.length = 20 := by
  constructor
  · intro v i h
    unfold get_structure_patterns
    have hall : v.all (fun s => s.data.contains '@' && s.data.contains '.') = true := by
      rw [List.all_eq_true]
      intro s hs
      rw [Bool.and_eq_true]
      exact h s hs
    rw [if_pos hall]
    exact List.mem_append.mpr (Or.inr (by simp))
  · decide

/-- C9 witness: the amended emission statement applied at a concrete
valid set of email-shaped strings. -/
theorem c9_witness : emailGeneric ∈ get_structure_patterns ["a@b.c"] [] :=
  c9_amended.1 ["a@b.c"] [] (by decide)

/-- C10: the exact-match fallback never consults the invalid set: with
the same one string in both sets, the synthesizer returns the
anchored exact-escape pattern for it, even though that pattern
full-matches a string of the invalid set. -/
theorem c10_exact_fallback_ignores_invalid :
    generate_gree_expression ["x"] ["x"] = "^" ++ reEscape "x" ++ "$" ∧
    generate_gree_expression ["x"] ["x"] = "^x$" ∧
    pyFullmatch (generate_gree_expression ["x"] ["x"]) "x" = true ∧
    "x" ∈ (["x"] : List String) := by
  refine ⟨by decide, by decide, by decide, by decide⟩

/-! ## The exact-escape fallback full-matches its own string -/

lemma special_not_alnum {c : Char} (hc : reSpecialChars.contains c = true) :
    c.isAlphanum = false := by
  have hm : c ∈ reSpecialChars := List.elem_iff.mp hc
  fin_cases hm <;> decide

lemma special_ne {c : Char} (hc : reSpecialChars.contains c = true) {x : Char}
    (hx : reSpecialChars.contains x = false) : c ≠ x := by
  intro h
  rw [h, hx] at hc
  cases hc

lemma nonspecial_ne {c : Char} (hc : reSpecialChars.contains c = false) {x : Char}
    (hx : reSpecialChars.contains x = true) : c ≠ x := by
  intro h
  rw [h, hx] at hc
  cases hc

lemma parseItems_hat_step (f : Nat) (rest : List Char) :
    parseItems (f + 1) ('^' :: rest) =
      (parseItems f rest).map (fun its => RItem.start :: its) := by
  conv_lhs => unfold parseItems
  rw [if_pos rfl]

lemma parseItems_atom_step (f : Nat) (c : Char) (rest : List Char)
    (h1 : c ≠ '^') (h2 : c ≠ '$') (h3 : ¬(c = '*' ∨ c = '+' ∨ c = '?')) :
    parseItems (f + 1) (c :: rest) =
      match parseAtom (c :: rest) with
      | none => none
      | some (a, r) =>
        match parseQuant a r with
        | none => none
        | some (it, r') => (parseItems f r').map (fun its => it :: its) := by
  conv_lhs => unfold parseItems
  rw [if_neg h1, if_neg h2, if_neg h3]

lemma parseAtom_escaped {c : Char} (hc : reSpecialChars.contains c = true)
    (r : List Char) : parseAtom ('\\' :: c :: r) = some (.lit c, r) := by
  simp only [parseAtom]
  rw [if_neg (by decide), if_pos trivial,
    if_neg (special_ne hc (by decide)), if_neg (special_ne hc (by decide)),
    if_neg (special_ne hc (by decide)),
    if_neg (by rw [special_not_alnum hc]; exact Bool.false_ne_true)]

lemma parseAtom_plain {c : Char} (hc : reSpecialChars.contains c = false)
    (r : List Char) : parseAtom (c :: r) = some (.lit c, r) := by
  simp only [parseAtom]
  rw [if_neg (nonspecial_ne hc (by decide)), if_neg (nonspecial_ne hc (by decide)),
    if_neg (nonspecial_ne hc (by decide)),
    if_neg (by rintro (h | h | h) <;> exact nonspecial_ne hc (by decide) h)]

lemma parseQuant_once (a : Atom) (l : List Char)
    (h : ∀ c, l.head? = some c → c ≠ '*' ∧ c ≠ '+' ∧ c ≠ '?' ∧ c ≠ '\x7b') :
    parseQuant a l = some (.once a, l) := by
  cases l with
  | nil => rfl
  | cons c r =>
    obtain ⟨h1, h2, h3, h4⟩ := h c rfl
    simp only [parseQuant]
    rw [if_neg h1, if_neg h2, if_neg h3, if_neg h4]

lemma escList_cons (c : Char) (cs : List Char) :
    escList (c :: cs) = escChars c ++ escList cs := rfl

lemma escList_head_not_quant (cs : List Char) :
    ∀ c, (escList cs ++ ['$']).head? = some c →
      c ≠ '*' ∧ c ≠ '+' ∧ c ≠ '?' ∧ c ≠ '\x7b' := by
  intro c hc
  cases cs with
  | nil =>
    simp [escList, flatMapL] at hc
    rw [← hc]
    decide
  | cons d cs =>
    rw [escList_cons] at hc
    unfold escChars at hc
    by_cases hd : reSpecialChars.contains d = true
    · rw [if_pos hd] at hc
      simp at hc
      rw [← hc]
      decide
    · rw [if_neg hd] at hc
      simp at hc
      rw [Bool.not_eq_true] at hd
      rw [← hc]
      exact ⟨nonspecial_ne hd (by decide), nonspecial_ne hd (by decide),
        nonspecial_ne hd (by decide), nonspecial_ne hd (by decide)⟩

lemma parseItems_escape : ∀ (cs : List Char) (f : Nat),
    (escList cs).length + 2 ≤ f →
    parseItems f (escList cs ++ ['$']) =
      some (cs.map (fun c => RItem.once (Atom.lit c)) ++ [RItem.dollar]) := by
  intro cs
  induction cs with
  | nil =>
    intro f hf
    obtain ⟨g, rfl⟩ : ∃ g, f = g + 2 := ⟨f - 2, by omega⟩
    rfl
  | cons c cs ih =>
    intro f hf
    rw [escList_cons, List.append_assoc]
    by_cases hc : reSpecialChars.contains c = true
    · have hesc : escChars c = ['\\', c] := by rw [escChars, if_pos hc]
      have hlen : (escList (c :: cs)).length = 2 + (escList cs).length := by
        rw [escList_cons, List.length_append, hesc]
        rfl
      obtain ⟨g, rfl⟩ : ∃ g, f = g + 1 := ⟨f - 1, by omega⟩
      rw [hesc]
      show parseItems (g + 1) ('\\' :: c :: (escList cs ++ ['$'])) = _
      rw [parseItems_atom_step g '\\' _ (by decide) (by decide) (by decide),
        parseAtom_escaped hc]
      dsimp only
      rw [parseQuant_once (Atom.lit c) _ (escList_head_not_quant cs)]
      dsimp only
      rw [ih g (by omega)]
      rfl
    · rw [Bool.not_eq_true] at hc
      have hesc : escChars c = [c] := by rw [escChars, hc]; rfl
      have hlen : (escList (c :: cs)).length = 1 + (escList cs).length := by
        rw [escList_cons, List.length_append, hesc]
        rfl
      obtain ⟨g, rfl⟩ : ∃ g, f = g + 1 := ⟨f - 1, by omega⟩
      rw [hesc]
      show parseItems (g + 1) (c :: (escList cs ++ ['$'])) = _
      rw [parseItems_atom_step g c _ (nonspecial_ne hc (by decide))
          (nonspecial_ne hc (by decide))
          (by rintro (h | h | h) <;> exact nonspecial_ne hc (by decide) h),
        parseAtom_plain hc]
      dsimp only
      rw [parseQuant_once (Atom.lit c) _ (escList_head_not_quant cs)]
      dsimp only
      rw [ih g (by omega)]
      rfl

lemma compile_escape (s : String) :
    compile ("^" ++ reEscape s ++ "$") =
      some (RItem.start :: (s.data.map (fun c => RItem.once (Atom.lit c)) ++
        [RItem.dollar])) := by
  have hdata : ("^" ++ reEscape s ++ "$").data = '^' :: (escList s.data ++ ['$']) := by
    rw [strDataAppend, strDataAppend]
    show ['^'] ++ escList s.data ++ ['$'] = _
    simp
  unfold compile
  rw [hdata]
  have hlen : ('^' :: (escList s.data ++ ['$'])).length + 1 =
      ((escList s.data).length + 2) + 1 := by
    simp
  rw [hlen, parseItems_hat_step, parseItems_escape s.data _ (by omega)]
  rfl

lemma runItems_lits : ∀ (cs pre : List Char),
    runItems (cs.map (fun c => RItem.once (Atom.lit c))) (pre ++ cs) [pre.length] =
      [pre.length + cs.length] := by
  intro cs
  induction cs with
  | nil =>
    intro pre
    simp [runItems]
  | cons c cs ih =>
    intro pre
    rw [List.map_cons, runItems_cons, stepPositions_singleton]
    have hstep : itemPositions (RItem.once (Atom.lit c)) (pre ++ c :: cs) pre.length =
        [pre.length + 1] := by
      simp [itemPositions, canEat, List.drop_left, atomAccepts]
    rw [hstep]
    have hs : pre ++ c :: cs = (pre ++ [c]) ++ cs := by simp
    have h1 : pre.length + 1 = (pre ++ [c]).length := by simp
    rw [hs, h1, ih (pre ++ [c])]
    have : (pre ++ [c]).length + cs.length = pre.length + (c :: cs).length := by
      simp
      omega
    rw [this]

lemma escape_fullmatch (s : String) :
    pyFullmatch ("^" ++ reEscape s ++ "$") s = true := by
  unfold pyFullmatch
  rw [compile_escape]
  show fullmatchChars _ s.data = true
  unfold fullmatchChars
  rw [runItems_cons, stepPositions_singleton,
    show itemPositions RItem.start s.data 0 = [0] from rfl,
    runItems_append]
  have hlits := runItems_lits s.data []
  simp only [List.nil_append, List.length_nil, Nat.zero_add] at hlits
  rw [hlits, runItems_cons, runItems_nil, stepPositions_singleton]
  rw [show itemPositions RItem.dollar s.data s.data.length = [s.data.length] from by
    simp [itemPositions]]
  rw [contains_iff_mem]
  exact List.mem_singleton.mpr rfl

/-- C1 counterexample: with an empty valid set and the empty string in
the invalid set, the synthesizer returns the empty-string pattern,
which is neither of the two fallback constants (the valid set does not
hold exactly one string, so no exact-escape constant applies, and the
result differs from the universal pattern), yet the validator rejects
it because it full-matches the empty string of the invalid set. -/
theorem c1_counterexample :
    generate_gree_expression [] [""] = "^$" ∧
    ("^$" : String) ≠ "^.*$" ∧
    ([] : List String).length ≠ 1 ∧
    test_pattern "^$" [] [""] = false ∧
    pyFullmatch "^$" "" = true := by
  refine ⟨by decide, by decide, by decide, by decide, by decide⟩

/-- C1 amended: whenever the synthesizer returns a pattern other than
the universal pattern, the empty-valid-set pattern, and the
exact-escape fallback, that pattern compiles, full-matches every valid
string and full-matches no invalid string; and whenever it returns any
pattern other than the universal pattern, that pattern full-matches
every valid string. -/
theorem c1_amended (v i : List String) (e : List Char) :
    ((generateGreeExpressionOrd v i e ≠ "^.*$") →
     (generateGreeExpressionOrd v i e ≠ "^$") →
     (∀ s, v = [s] → generateGreeExpressionOrd v i e ≠ "^" ++ reEscape s ++ "$") →
      ((compile (generateGreeExpressionOrd v i e)).isSome ∧
       (∀ s ∈ v, pyFullmatch (generateGreeExpressionOrd v i e) s = true) ∧
       (∀ s ∈ i, pyFullmatch (generateGreeExpressionOrd v i e) s = false))) ∧
    ((generateGreeExpressionOrd v i e ≠ "^.*$") →
      ∀ s ∈ v, pyFullmatch (generateGreeExpressionOrd v i e) s = true) := by
  rcases genOrd_eq_cases v i e with ⟨hv, hr⟩ | ⟨p, hmem, hok, hr⟩ | ⟨s, hv, h18, hr⟩ | hr
  · constructor
    · intro _ h2 _
      exact absurd hr h2
    · intro _ s hs
      rw [hv] at hs
      cases hs
  · have ht : test_pattern p v i = true := by
      unfold candidateOk at hok
      rw [Bool.and_eq_true] at hok
      exact hok.2
    have hsep := (test_pattern_iff p v i).mp ht
    rw [hr]
    exact ⟨fun _ _ _ => hsep, fun _ => hsep.2.1⟩
  · constructor
    · intro _ _ h3
      exact absurd hr (h3 s hv)
    · intro _ t ht
      rw [hv, List.mem_singleton] at ht
      rw [hr, ht]
      exact escape_fullmatch s
  · constructor
    · intro h1
      exact absurd hr h1
    · intro h1
      exact absurd hr h1

/-- C1 witness: the amended statement applied at a concrete input
whose winner is the non-digit character-class candidate. -/
theorem c1_witness :
    (compile (generate_gree_expression ["ab"] ["12"])).isSome ∧
    (∀ s ∈ (["ab"] : List String),
      pyFullmatch (generate_gree_expression ["ab"] ["12"]) s = true) ∧
    (∀ s ∈ (["12"] : List String),
      pyFullmatch (generate_gree_expression ["ab"] ["12"]) s = false) :=
  (c1_amended ["ab"] ["12"] (exclusiveChars ["ab"] ["12"])).1 (by decide) (by decide)
    (by
      intro s hs
      injection hs with h1 h2
      rw [← h1]
      decide)
